import Mathlib

/-!
Verification development for the sofer-core outline engine.

The Rust sources are shallowly embedded: Rust `String`/`&str` become
`List Char` (written `Str`), iterated exactly like the source's
char-by-char state machines; 128-bit `Uuid` values become `Nat`
(`Uuid::nil()` is `0`); fallible code (`panic!`) returns `Except Str`;
the in-place tree mutations of `tree.rs` become functions returning the
updated tree.  External library behaviour used by the core (uuid
formatting/parsing, `f32` literal recognition, the Lua interpreter) is
modelled explicitly and documented at each definition.
-/

set_option maxHeartbeats 1000000
set_option maxRecDepth 100000

namespace Sofer

/-- Characters of a Rust string, in order; the embedding of `String`/`&str`. -/
abbrev Str := List Char

/-- Lower-case hex digit for a value below 16, as `core::fmt::LowerHex` prints it. -/
def hexChar (n : Nat) : Char :=
  if n < 10 then Char.ofNat (48 + n) else Char.ofNat (87 + n)

/-- Fixed-width big-endian lower-case hex rendering of a natural number. -/
def toHexDigits (n : Nat) : Nat → Str
  | 0 => []
  | k + 1 => toHexDigits (n / 16) k ++ [hexChar (n % 16)]

/-- Hyphenated canonical text form of a uuid (`Display for Uuid` in the uuid
crate, external to the repo): 32 lower-case hex digits grouped 8-4-4-4-12. -/
def uuidToStr (n : Nat) : Str :=
  let h := toHexDigits n 32
  h.take 8 ++ '-' :: (h.drop 8).take 4 ++ '-' :: (h.drop 12).take 4
    ++ '-' :: (h.drop 16).take 4 ++ '-' :: h.drop 20

/-- Numeric value of one hex digit, any case. -/
def hexVal (c : Char) : Option Nat :=
  if '0' ≤ c ∧ c ≤ '9' then some (c.toNat - 48)
  else if 'a' ≤ c ∧ c ≤ 'f' then some (c.toNat - 87)
  else if 'A' ≤ c ∧ c ≤ 'F' then some (c.toNat - 55)
  else none

/-- Big-endian hex string to number, failing on a non-hex character. -/
def parseHexAcc : Str → Nat → Option Nat
  | [], acc => some acc
  | c :: rest, acc =>
    match hexVal c with
    | some d => parseHexAcc rest (acc * 16 + d)
    | none => none

/-- Model of `Uuid::parse_str` from the uuid crate (external library code):
accepts the 32-digit simple form and the 36-character hyphenated form with
hyphens at positions 8, 13, 18 and 23; anything else is an error.  (The
crate's urn form is irrelevant to this repository's data and omitted.) -/
def parseUuid (s : Str) : Except Str Nat :=
  if s.length = 36 then
    if s.get? 8 = some '-' ∧ s.get? 13 = some '-' ∧ s.get? 18 = some '-'
        ∧ s.get? 23 = some '-' then
      let core := s.take 8 ++ (s.drop 9).take 4 ++ (s.drop 14).take 4
        ++ (s.drop 19).take 4 ++ s.drop 24
      match parseHexAcc core 0 with
      | some n => .ok n
      | none => .error s
    else .error s
  else if s.length = 32 then
    match parseHexAcc s 0 with
    | some n => .ok n
    | none => .error s
  else .error s

/-- Model of an `f32` value (`node.rs` stores attribute numbers as `f32`).
Machine floats are external to the shallow embedding; a value is modelled by
the literal text it was parsed from.  None of the claims settled below
distinguishes two literals denoting the same float. -/
structure F32 where
  lit : Str
deriving DecidableEq, Repr

/-- Decimal digit test, as `char::is_ascii_digit`. -/
def isDigit (c : Char) : Bool := decide ('0' ≤ c) && decide (c ≤ '9')

/-- Recognizer for the grammar accepted by Rust's `f32::from_str` (external
library code): optional sign, then `inf`/`infinity`/`nan` (any case) or a
decimal mantissa with an optional `e`/`E` exponent. -/
def isF32Lit (s : Str) : Bool :=
  let t := match s with
    | '+' :: r => r
    | '-' :: r => r
    | r => r
  let lower := t.map Char.toLower
  if lower = "inf".toList || lower = "infinity".toList || lower = "nan".toList then
    true
  else
    let ds := t.takeWhile isDigit
    let rest := t.dropWhile isDigit
    let mantAndRest : Bool × Str :=
      match rest with
      | '.' :: r2 => (!ds.isEmpty || !(r2.takeWhile isDigit).isEmpty, r2.dropWhile isDigit)
      | r2 => (!ds.isEmpty, r2)
    mantAndRest.1 &&
      (match mantAndRest.2 with
       | [] => true
       | 'e' :: r3 => expTail r3
       | 'E' :: r3 => expTail r3
       | _ => false)
where
  /-- Exponent tail: optional sign then one or more digits. -/
  expTail (r : Str) : Bool :=
    let r' := match r with
      | '+' :: r2 => r2
      | '-' :: r2 => r2
      | r2 => r2
    !r'.isEmpty && r'.all isDigit

/-- Model of `str::parse::<f32>()`: succeeds exactly on the `f32::from_str`
grammar, keeping the literal as the value's representation. -/
def parseF32 (s : Str) : Option F32 :=
  if isF32Lit s then some ⟨s⟩ else none

/-- Attribute of a node (`node.rs`): `String(name, text)`, `Number(name, f32)`
or `Boolean(name, bool)`. -/
inductive Attribute where
  | String : Str → Str → Attribute
  | Number : Str → F32 → Attribute
  | Boolean : Str → Bool → Attribute
deriving DecidableEq, Repr

/-- Node payload (`node.rs`): raw text, cached evaluation result, attributes. -/
structure Node where
  raw : Str
  evaled : Option Str
  attributes : List Attribute
deriving DecidableEq, Repr

/-- Constructor `Node::new`: fresh nodes carry no evaluation result. -/
def Node.new (raw : Str) (attributes : List Attribute) : Node :=
  ⟨raw, none, attributes⟩

/-- The first-child / next-sibling tree of `tree.rs`: payload, identifier and
two optional owned links. -/
inductive Tree (α : Type) : Type
  | mk : α → Nat → Option (Tree α) → Option (Tree α) → Tree α

/-- Payload of the tree node (`value` field). -/
def Tree.value {α} : Tree α → α
  | .mk v _ _ _ => v

/-- Identifier of the tree node (`uuid` field). -/
def Tree.uuid {α} : Tree α → Nat
  | .mk _ u _ _ => u

/-- Head of the child list (`first_child` field). -/
def Tree.first_child {α} : Tree α → Option (Tree α)
  | .mk _ _ fc _ => fc

/-- Next node at the same level (`next_sibling` field). -/
def Tree.next_sibling {α} : Tree α → Option (Tree α)
  | .mk _ _ _ ns => ns

/-- Constructor `Tree::new_tree`: a standalone root carrying the sentinel
(nil) identifier and no links. -/
def Tree.new_tree {α} (value : α) : Tree α := .mk value 0 none none

/-- Method `Tree::insert_to_sibling`: append a node at the end of the sibling
chain. -/
def insertToSibling {α} : Tree α → Tree α → Tree α
  | .mk v u fc ns, nn =>
    match ns with
    | some n => .mk v u fc (some (insertToSibling n nn))
    | none => .mk v u fc (some nn)

/-- Method `Tree::insert`: attach `nn` as last child of the node whose
identifier is `pid`, searching self first, then the first-child subtree, then
the next-sibling chain; the boolean reports whether an attachment occurred.
The in-place mutation of the source is rendered by returning the updated
tree. -/
def insert {α} : Tree α → Nat → Tree α → Tree α × Bool
  | .mk v u fc ns, pid, nn =>
    if u = pid then
      match fc with
      | some n => (.mk v u (some (insertToSibling n nn)) ns, true)
      | none => (.mk v u (some nn) ns, true)
    else
      match fc, ns with
      | some n, some s =>
        let r := insert n pid nn
        if r.2 then (.mk v u (some r.1) (some s), true)
        else
          let r2 := insert s pid nn
          (.mk v u (some r.1) (some r2.1), r2.2)
      | some n, none =>
        let r := insert n pid nn
        (.mk v u (some r.1) none, r.2)
      | none, some s =>
        let r2 := insert s pid nn
        (.mk v u none (some r2.1), r2.2)
      | none, none => (.mk v u none none, false)

/-- Method `Tree::get_siblings`: the nodes reachable through `next_sibling`
after self, in order, excluding self. -/
def getSiblings {α} : Tree α → List (Tree α)
  | .mk _ _ _ ns =>
    match ns with
    | some s => s :: getSiblings s
    | none => []

/-- Method `Tree::get_children`: the full sibling chain starting at
`first_child`, in order. -/
def getChildren {α} : Tree α → List (Tree α)
  | .mk _ _ fc _ =>
    match fc with
    | some c => c :: getSiblings c
    | none => []

/-- Method `Tree::traverse`: pre-order walk pairing each node with its depth;
depth 0 at the start, +1 per `first_child` descent, unchanged across
`next_sibling`. -/
def traverse {α} : Tree α → List (Nat × Tree α)
  | .mk v u fc ns =>
    (0, .mk v u fc ns) ::
      ((match fc with
        | some n => (traverse n).map (fun p => (p.1 + 1, p.2))
        | none => [])
      ++ (match ns with
        | some n => traverse n
        | none => []))

/-- Number of nodes reachable from a tree node through `first_child` and
`next_sibling` links, the node itself included. -/
def size {α} : Tree α → Nat
  | .mk _ _ fc ns =>
    1 + (match fc with | some c => size c | none => 0)
      + (match ns with | some s => size s | none => 0)

/-- Identifiers of all nodes reachable from a tree node, self first. -/
def treeUuids {α} : Tree α → List Nat
  | .mk _ u fc ns =>
    u :: ((match fc with | some c => treeUuids c | none => [])
      ++ (match ns with | some s => treeUuids s | none => []))

/-- The tree of nodes (`node.rs`: `pub type TreeNode = tree::Tree<Node>`). -/
abbrev TreeNode := Tree Node

/-- Outcome of running a source string through the embedded Lua interpreter,
as `eval` in `node.rs` discriminates it: a callable (whose call on a node
either yields a formatted string or fails), any other successful value
(carried as the text `format!` renders for it), or an error (likewise carried
as its rendered text).  The interpreter itself is the external scripting
capability (`rlua`), so it enters the embedding as a parameter. -/
inductive LuaResult where
  | Function : (TreeNode → Option Str) → LuaResult
  | Value : Str → LuaResult
  | Err : Str → LuaResult

/-- The external scripting capability: what `Lua::new()` plus `lua.eval`
yields on a given source string. -/
abbrev LuaEval := Str → LuaResult

/-- Method `TreeNode::eval` (`node.rs`): keep the raw text before the first
`@` as literal prefix; run everything after the first `@` (if nonempty)
through the scripting capability; a callable result is called on the node
(a failed call becomes the fixed placeholder `error function`), any other
result or error is rendered as text; prefix and rendered suffix are
concatenated. -/
def eval (lua : LuaEval) (t : TreeNode) : Str :=
  let text := t.value.raw.takeWhile (fun c => c ≠ '@')
  let luaCode := (t.value.raw.dropWhile (fun c => c ≠ '@')).drop 1
  let result :=
    if !luaCode.isEmpty then
      match lua luaCode with
      | .Function f => (f t).getD ("error function".toList)
      | .Value x => x
      | .Err e => e
    else []
  text ++ result

/-- Method `TreeNode::eval_all` (`node.rs`): store `eval` of the current node
into `evaled`, then recurse into the first child and then the next sibling. -/
def evalAll (lua : LuaEval) : TreeNode → TreeNode
  | .mk v u fc ns =>
    .mk ⟨v.raw, some (eval lua (.mk v u fc ns)), v.attributes⟩ u
      (match fc with | some c => some (evalAll lua c) | none => none)
      (match ns with | some s => some (evalAll lua s) | none => none)

/-- Rendering of a Rust `String` by `format!` with `:?` (Debug), as
`export_attributes` uses for text attribute values: the text between quotes
with backslash escapes.  (Debug additionally escapes control characters with
`\u` sequences; no claim below exercises those.) -/
def debugFmt (s : Str) : Str :=
  '"' :: s.foldr (fun c acc =>
    (if c = '"' then ['\\', '"']
     else if c = '\\' then ['\\', '\\']
     else if c = '\n' then ['\\', 'n']
     else if c = '\t' then ['\\', 't']
     else if c = '\r' then ['\\', 'r']
     else [c]) ++ acc) ['"']

/-- Rendering of an `f32` by `format!` with plain Display, modelled as the
stored literal (see `F32`). -/
def f32Display (x : F32) : Str := x.lit

/-- Method `TreeNode::export_attributes` (`node.rs`): each attribute becomes
`name=value;`, text values in Debug form, numbers in Display form, booleans
as the single letters `T` / `F`. -/
def exportAttributes (t : TreeNode) : Str :=
  t.value.attributes.foldl (fun str attr =>
    match attr with
    | .String k v => str ++ k ++ '=' :: debugFmt v ++ [';']
    | .Number k v => str ++ k ++ '=' :: f32Display v ++ [';']
    | .Boolean k true => str ++ k ++ '=' :: 'T' :: [';']
    | .Boolean k false => str ++ k ++ '=' :: 'F' :: [';']) []

/-- Flat record produced while serializing: `(uuid, parent_uuid,
attribute_text, selected_text)`, the tuple `to_vec` builds in
`export_to_sofer`. -/
abbrev Rec := Nat × Nat × Str × Str

/-- Text selected for a record: the evaluated text falling back to raw when
`evaled` is requested, the raw text otherwise. -/
def textOf (n : Node) (evaled : Bool) : Str :=
  if evaled then n.evaled.getD n.raw else n.raw

/-- Records of a sibling chain of children below the parent `pu`: each node of
the chain contributes its own record followed by its children's records
(the loop body of `to_vec_children` in `export_to_sofer`). -/
def toVecChain (c : TreeNode) (pu : Nat) (evaled : Bool) : List Rec :=
  match c with
  | .mk v cu cfc cns =>
    (cu, pu, exportAttributes (.mk v cu cfc cns), textOf v evaled)
      :: ((match cfc with | some cc => toVecChain cc cu evaled | none => [])
      ++ (match cns with | some s => toVecChain s pu evaled | none => []))

/-- Records of the receiver's sibling chain, each with the nil parent, as the
sibling loop of `to_vec` emits them. -/
def toVecSibChain (s : TreeNode) (evaled : Bool) : List Rec :=
  match s with
  | .mk v u fc ns =>
    (u, 0, exportAttributes (.mk v u fc ns), textOf v evaled)
      :: ((match fc with | some c => toVecChain c u evaled | none => [])
      ++ (match ns with | some s2 => toVecSibChain s2 evaled | none => []))

/-- The helper `to_vec` of `export_to_sofer`: the receiver's record with the
nil parent, its children's records, then the records of its siblings (also
with the nil parent) and their children. -/
def toVec (t : TreeNode) (evaled : Bool) : List Rec :=
  match t with
  | .mk v u fc ns =>
    (u, 0, exportAttributes (.mk v u fc ns), textOf v evaled)
      :: ((match fc with | some c => toVecChain c u evaled | none => [])
      ++ (match ns with | some s => toVecSibChain s evaled | none => []))

/-- One output line of `export_to_sofer`:
`id parent_id attribute_text content` and a newline. -/
def lineOf (r : Rec) : Str :=
  uuidToStr r.1 ++ ' ' :: uuidToStr r.2.1 ++ ' ' :: r.2.2.1 ++ ' ' :: r.2.2.2 ++ ['\n']

/-- The record sort of `export_to_sofer` (`vec.sort_by_key(|k| k.0)`): Rust's
stable sort by the record's id; rendered by insertion sort, which computes
the same list as any stable sort under this total key order. -/
def sortRecs (l : List Rec) : List Rec :=
  List.insertionSort (fun a b => a.1 ≤ b.1) l

/-- Method `TreeNode::export_to_sofer` (`node.rs`): flatten to records, sort
by id, skip the first record of the sorted list, emit one line per remaining
record. -/
def exportToSofer (t : TreeNode) (evaled : Bool) : Str :=
  ((sortRecs (toVec t evaled)).drop 1).foldl (fun str r => str ++ lineOf r) []

/-- Flat record of `reader.rs` (its `Node` struct, renamed here because
`node.rs` also has a `Node`): content, attributes, own id and declared parent
id of one parsed line. -/
structure FlatNode where
  content : Str
  attributes : List Attribute
  uuid : Nat
  parent_uuid : Nat
deriving DecidableEq, Repr

/-- Value classification at a `;` in `read_attributes` (`reader.rs`): a value
opening with `"` is a text attribute with every quote character removed; a
value whose first character is `T` or `F` is a boolean provided at most one
character follows (the code tests `chars.nth(1) == None` after consuming the
first character), else a panic; anything else must parse as `f32`, else a
panic; an empty value is a panic. -/
def classifyValue (field value : Str) : Except Str Attribute :=
  match value with
  | [] => .error ("empty attribute value".toList)
  | '"' :: rest => .ok (.String field (rest.filter (fun c => c ≠ '"')))
  | 'T' :: rest =>
    if rest.length ≤ 1 then .ok (.Boolean field true)
    else .error ("bad attribute value".toList)
  | 'F' :: rest =>
    if rest.length ≤ 1 then .ok (.Boolean field false)
    else .error ("bad attribute value".toList)
  | _ =>
    match parseF32 value with
    | some num => .ok (.Number field num)
    | none => .error ("bad attribute value".toList)

/-- The state machine of `read_attributes` (`reader.rs`): outside a quoted
value, `=` switches to value mode (consuming an immediately following quote
into the value and entering string mode), `;` classifies the accumulated
value, any other character extends the field or the value; inside a quoted
value every character until the closing quote is accumulated, and end of
input inside a string is a panic. -/
def readAttrsLoop : Str → Nat → Bool → Str → Str → List Attribute → Except Str (List Attribute)
  | [], _, readingString, _, _, acc =>
    if readingString then .error ("unterminated string attribute".toList)
    else .ok acc
  | c :: rest, reading, readingString, field, value, acc =>
    if readingString then
      if c = '"' then readAttrsLoop rest reading false field (value ++ ['"']) acc
      else readAttrsLoop rest reading true field (value ++ [c]) acc
    else
      if c = '=' then
        match rest with
        | '"' :: rest2 => readAttrsLoop rest2 1 true field (value ++ ['"']) acc
        | [] => readAttrsLoop [] 1 false field value acc
        | c2 :: rest2 => readAttrsLoop (c2 :: rest2) 1 false field value acc
      else if c = ';' then
        match classifyValue field value with
        | .ok attr => readAttrsLoop rest 0 false [] [] (acc ++ [attr])
        | .error e => .error e
      else
        match reading with
        | 0 => readAttrsLoop rest reading false (field ++ [c]) value acc
        | 1 => readAttrsLoop rest reading false field (value ++ [c]) acc
        | _ => .error ("bad attribute state".toList)

/-- Function `read_attributes` (`reader.rs`). -/
def readAttributes (s : Str) : Except Str (List Attribute) :=
  readAttrsLoop s 0 false [] [] []

/-- Function `sort_nodes` (`reader.rs`): Rust's stable `sort_by` comparing
`parent_uuid`; rendered by insertion sort, which computes the same list as
any stable sort under this total key order. -/
def sortNodes (nodes : List FlatNode) : List FlatNode :=
  List.insertionSort (fun a b => a.parent_uuid ≤ b.parent_uuid) nodes

/-- The character loop of `read_nodes` (`reader.rs`): the first three spaces
separate id, parent id and attribute text; later spaces belong to the
content; a newline parses the two uuids (a failure is the `Wrong UUID` panic)
and the attribute text, appends the finished record and resets the state; end
of input sorts and returns what was accumulated, dropping any partial line. -/
def readNodesLoop : Str → Str → Str → Str → Str → Nat → List FlatNode → Except Str (List FlatNode)
  | [], _, _, _, _, _, nodes => .ok (sortNodes nodes)
  | c :: rest, us, ps, ats, cs, reading, nodes =>
    if c = ' ' then
      if reading < 3 then readNodesLoop rest us ps ats cs (reading + 1) nodes
      else readNodesLoop rest us ps ats (cs ++ [' ']) reading nodes
    else if c = '\n' then
      match parseUuid us with
      | .error _ => .error ("Wrong UUID: ".toList ++ us)
      | .ok uuid =>
        match parseUuid ps with
        | .error _ => .error ("Wrong UUID: ".toList ++ ps)
        | .ok parentUuid =>
          match readAttributes ats with
          | .error e => .error e
          | .ok attrs =>
            readNodesLoop rest [] [] [] [] 0 (nodes ++ [⟨cs, attrs, uuid, parentUuid⟩])
    else
      match reading with
      | 0 => readNodesLoop rest (us ++ [c]) ps ats cs reading nodes
      | 1 => readNodesLoop rest us (ps ++ [c]) ats cs reading nodes
      | 2 => readNodesLoop rest us ps (ats ++ [c]) cs reading nodes
      | 3 => readNodesLoop rest us ps ats (cs ++ [c]) reading nodes
      | _ => .error ("this should not have happened".toList)

/-- Function `read_nodes` (`reader.rs`). -/
def readNodes (s : Str) : Except Str (List FlatNode) :=
  readNodesLoop s [] [] [] [] 0 []

/-- A fresh `TreeNode` leaf built from one flat record, as both assembly
functions of `reader.rs` construct it. -/
def leafOf (n : FlatNode) : TreeNode :=
  .mk (Node.new n.content n.attributes) n.uuid none none

/-- Function `nodes_to_one_tree_node` (`reader.rs`): one pass over all
records, trying to insert each (as a leaf, under its declared parent) into
the accumulated subtree. -/
def nodesToOneTreeNode (nodes : List FlatNode) (t : TreeNode) : TreeNode :=
  nodes.foldl (fun acc m => (insert acc m.parent_uuid (leafOf m)).1) t

/-- Loop body of `nodes_to_tree_node` (`reader.rs`): look up the position of
the record's declared parent among all records; if none exists, push the
record as a top-level node; otherwise use that position to index the
top-level list built so far (the source indexes `tree_nodes` with a position
computed in `nodes`) and, when in range, insert the record's subtree (built
by `nodes_to_one_tree_node`) there. -/
def buildStep (nodes : List FlatNode) (tns : List TreeNode) (n : FlatNode) : List TreeNode :=
  match List.findIdx? (fun m => m.uuid == n.parent_uuid) nodes with
  | some idx =>
    match tns.get? idx with
    | some parent =>
      tns.set idx (insert parent n.parent_uuid (nodesToOneTreeNode nodes (leafOf n))).1
    | none => tns
  | none => tns ++ [leafOf n]

/-- Function `nodes_to_tree_node` (`reader.rs`): run `buildStep` over the
records in order, then attach every accumulated top-level node under a fresh
sentinel root. -/
def nodesToTreeNode (nodes : List FlatNode) : TreeNode :=
  let treeNodes := nodes.foldl (buildStep nodes) []
  treeNodes.foldl (fun acc tn => (insert acc 0 tn).1) (Tree.new_tree (Node.new [] []))

/-- Method `TreeNode::import_from_sofer` (`node.rs`): parse the records, then
assemble the tree. -/
def importFromSofer (s : Str) : Except Str TreeNode :=
  match readNodes s with
  | .ok nodes => .ok (nodesToTreeNode nodes)
  | .error e => .error e

/-- Payloads of all nodes reachable from a tree node, in pre-order. -/
def nodesOf : TreeNode → List Node
  | .mk v _ fc ns =>
    v :: ((match fc with | some c => nodesOf c | none => [])
      ++ (match ns with | some s => nodesOf s | none => []))

/-- The `(parent_id, attribute list, raw text)` association of every node
reachable from a tree node: the association the round-trip property of the
spec compares as a multiset.  The first argument is the parent id recorded
for the receiving node (the sentinel when starting at a root). -/
def assocList : Nat → TreeNode → List (Nat × List Attribute × Str)
  | p, .mk v u fc ns =>
    (p, v.attributes, v.raw)
      :: ((match fc with | some c => assocList u c | none => [])
      ++ (match ns with | some s => assocList p s | none => []))

/-- Concrete tree for the round-trip failing input: the sentinel root over
the chain id 1 → id 4 → id 2 → id 3, all without attributes.  The child
carries a larger id than its own child, which defeats the assembly pass. -/
def c1Orig : TreeNode :=
  .mk (Node.new [] []) 0
    (some (.mk (Node.new ("a".toList) []) 1
      (some (.mk (Node.new ("b".toList) []) 4
        (some (.mk (Node.new ("c".toList) []) 2
          (some (.mk (Node.new ("d".toList) []) 3 none none)) none)) none)) none)) none

/-- What the codec actually rebuilds from `c1Orig`'s serialization: the
record with id 3 is gone. -/
def c1Rebuilt : TreeNode :=
  .mk (Node.new [] []) 0
    (some (.mk (Node.new ("a".toList) []) 1
      (some (.mk (Node.new ("b".toList) []) 4
        (some (.mk (Node.new ("c".toList) []) 2 none none)) none)) none)) none

/-- Concrete tree for the permutation counterexample: the sentinel root with
two top-level leaves, id 1 (text `a`) then id 2 (text `b`). -/
def c2Tree : TreeNode :=
  .mk (Node.new [] []) 0
    (some (.mk (Node.new ("a".toList) []) 1 none
      (some (.mk (Node.new ("b".toList) []) 2 none none)))) none

/-- Flat record of `c2Tree`'s first leaf. -/
def c2RecA : FlatNode := ⟨"a".toList, [], 1, 0⟩

/-- Flat record of `c2Tree`'s second leaf. -/
def c2RecB : FlatNode := ⟨"b".toList, [], 2, 0⟩

/-- Records with pairwise distinct parent ids (a two-node chain), for the
amended permutation-independence statement. -/
def c2ChainA : FlatNode := ⟨"a".toList, [], 1, 0⟩

/-- Second record of the two-node chain: its parent is the other record. -/
def c2ChainB : FlatNode := ⟨"b".toList, [], 2, 1⟩

/-- A record whose declared parent (id 7) is the id of no record in the set. -/
def c3Orphan : FlatNode := ⟨"w".toList, [], 1, 7⟩

/-- Stub scripting capability for the evaluation scenarios: the source
` function(n) return 0 end` evaluates to a callable that renders `0`; any
other source is an error. -/
def c4Stub : LuaEval := fun code =>
  if code = " function(n) return 0 end".toList then .Function (fun _ => some ['0'])
  else .Err ("lua error".toList)

/-- Node whose raw text embeds the constant-zero formula. -/
def c4Count : TreeNode :=
  .mk (Node.new ("Count: @ function(n) return 0 end".toList) []) 5 none none

/-- Node whose raw text contains no `@`. -/
def c4Plain : TreeNode :=
  .mk (Node.new ("Plain text, no formula".toList) []) 6 none none

/-- Stub scripting capability on which every formula is a callable whose call
fails, exercising the failure-containment path of `eval`. -/
def c5Stub : LuaEval := fun _ => .Function (fun _ => none)

/-- Two-level tree with formulas everywhere, for the evaluation-containment
witness. -/
def c5Tree : TreeNode :=
  .mk (Node.new ("p: @ boom".toList) []) 0
    (some (.mk (Node.new ("c: @ boom".toList) []) 1 none
      (some (.mk (Node.new ("d: @ boom".toList) []) 2 none none)))) none

/-- Sentinel-rooted tree with top-level children id 2 then id 1, so that the
serialization order (by id) differs from the structural order. -/
def c7Tree : TreeNode :=
  .mk (Node.new [] []) 0
    (some (.mk (Node.new ("b".toList) []) 2 none
      (some (.mk (Node.new ("a".toList) []) 1 none none)))) none

/-- Small tree for the insert no-op witness, ids 0, 2, 1. -/
def c8Tree : TreeNode :=
  .mk (Node.new [] []) 0
    (some (.mk (Node.new ("b".toList) []) 2 none
      (some (.mk (Node.new ("a".toList) []) 1 none none)))) none

/-- Node offered for insertion in the insert no-op witness. -/
def c8New : TreeNode := .mk (Node.new ("x".toList) []) 5 none none

/-- Three-node tree (root, child, grandchild-as-sibling) for the traversal
witness. -/
def c9Tree : Tree Nat :=
  .mk 10 0 (some (.mk 11 1 none (some (.mk 12 2 none none)))) none

/-- One complete sofer line (record id 1). -/
def c10Full : Str :=
  ("00000000-0000-0000-0000-000000000001 00000000-0000-0000-0000-000000000000  a\n").toList

/-- A well-formed record line except for the missing final newline. -/
def c10Partial : Str :=
  ("00000000-0000-0000-0000-000000000002 00000000-0000-0000-0000-000000000000  b").toList

-- ### theorems below ###

/-- Unfolding equation for `insertToSibling` (stated by hand because the
equation compiler does not produce usable equations for this nested
recursion). -/
theorem insertToSibling_mk {α} (v : α) (u : Nat) (fc ns : Option (Tree α)) (nn : Tree α) :
    insertToSibling (.mk v u fc ns) nn =
      (match ns with
       | some n => .mk v u fc (some (insertToSibling n nn))
       | none => .mk v u fc (some nn)) := by
  cases ns <;> rfl

/-- Unfolding equation for `insert` when both links are present. -/
theorem insert_ss {α} (v : α) (u : Nat) (n s : Tree α) (pid : Nat) (nn : Tree α) :
    insert (.mk v u (some n) (some s)) pid nn =
      if u = pid then (.mk v u (some (insertToSibling n nn)) (some s), true)
      else
        let r := insert n pid nn
        if r.2 then (.mk v u (some r.1) (some s), true)
        else
          let r2 := insert s pid nn
          (.mk v u (some r.1) (some r2.1), r2.2) := rfl

/-- Unfolding equation for `insert` with a first child and no sibling. -/
theorem insert_sn {α} (v : α) (u : Nat) (n : Tree α) (pid : Nat) (nn : Tree α) :
    insert (.mk v u (some n) none) pid nn =
      if u = pid then (.mk v u (some (insertToSibling n nn)) none, true)
      else
        let r := insert n pid nn
        (.mk v u (some r.1) none, r.2) := rfl

/-- Unfolding equation for `insert` with a sibling and no first child. -/
theorem insert_ns {α} (v : α) (u : Nat) (s : Tree α) (pid : Nat) (nn : Tree α) :
    insert (.mk v u none (some s)) pid nn =
      if u = pid then (.mk v u (some nn) (some s), true)
      else
        let r2 := insert s pid nn
        (.mk v u none (some r2.1), r2.2) := rfl

/-- Unfolding equation for `insert` on a leaf. -/
theorem insert_nn {α} (v : α) (u : Nat) (pid : Nat) (nn : Tree α) :
    insert (.mk v u none none) pid nn =
      if u = pid then (.mk v u (some nn) none, true)
      else (.mk v u none none, false) := rfl

/-- Unfolding equation for `treeUuids`. -/
theorem treeUuids_mk {α} (v : α) (u : Nat) (fc ns : Option (Tree α)) :
    treeUuids (.mk v u fc ns) =
      u :: ((match fc with | some c => treeUuids c | none => [])
        ++ (match ns with | some s => treeUuids s | none => [])) := by
  cases fc <;> cases ns <;> rfl

/-- Unfolding equation for `traverse`. -/
theorem traverse_mk {α} (v : α) (u : Nat) (fc ns : Option (Tree α)) :
    traverse (.mk v u fc ns) =
      (0, .mk v u fc ns) ::
        ((match fc with
          | some n => (traverse n).map (fun p => (p.1 + 1, p.2))
          | none => [])
        ++ (match ns with
          | some n => traverse n
          | none => [])) := by
  cases fc <;> cases ns <;> rfl

/-- Unfolding equation for `size`. -/
theorem size_mk {α} (v : α) (u : Nat) (fc ns : Option (Tree α)) :
    size (.mk v u fc ns) =
      1 + (match fc with | some c => size c | none => 0)
        + (match ns with | some s => size s | none => 0) := by
  cases fc <;> cases ns <;> rfl

/-- Unfolding equation for `getSiblings`. -/
theorem getSiblings_mk {α} (v : α) (u : Nat) (fc ns : Option (Tree α)) :
    getSiblings (.mk v u fc ns) =
      (match ns with
       | some s => s :: getSiblings s
       | none => []) := by
  cases ns <;> rfl

/-- Unfolding equation for `getChildren`. -/
theorem getChildren_mk {α} (v : α) (u : Nat) (fc ns : Option (Tree α)) :
    getChildren (.mk v u fc ns) =
      (match fc with
       | some c => c :: getSiblings c
       | none => []) := by
  cases fc <;> rfl

/-- Unfolding equation for `evalAll`. -/
theorem evalAll_mk (lua : LuaEval) (v : Node) (u : Nat) (fc ns : Option TreeNode) :
    evalAll lua (.mk v u fc ns) =
      .mk ⟨v.raw, some (eval lua (.mk v u fc ns)), v.attributes⟩ u
        (match fc with | some c => some (evalAll lua c) | none => none)
        (match ns with | some s => some (evalAll lua s) | none => none) := by
  cases fc <;> cases ns <;> rfl


/-- A miss of `insert`'s pre-order search leaves the tree unchanged and
reports `false`. -/
theorem insert_not_found {α} : ∀ (t : Tree α) (pid : Nat) (nn : Tree α),
    pid ∉ treeUuids t → insert t pid nn = (t, false)
  | .mk v u fc ns, pid, nn, h => by
    rw [treeUuids_mk] at h
    cases fc with
    | none =>
      cases ns with
      | none =>
        simp only [List.mem_cons, List.not_mem_nil, List.nil_append, or_false, not_or] at h
        rw [insert_nn, if_neg (fun he => h he.symm)]
      | some s =>
        simp only [List.mem_cons, List.mem_append, List.not_mem_nil, List.nil_append,
          not_or] at h
        have hs := insert_not_found s pid nn h.2
        rw [insert_ns, if_neg (fun he => h.1 he.symm), hs]
    | some c =>
      cases ns with
      | none =>
        simp only [List.mem_cons, List.mem_append, List.not_mem_nil, or_false, not_or] at h
        have hc := insert_not_found c pid nn h.2
        rw [insert_sn, if_neg (fun he => h.1 he.symm), hc]
      | some s =>
        simp only [List.mem_cons, List.mem_append, not_or] at h
        have hc := insert_not_found c pid nn h.2.1
        have hs := insert_not_found s pid nn h.2.2
        rw [insert_ss, if_neg (fun he => h.1 he.symm), hc]
        simp [hs]

/-- C8: for every tree and every identifier that is not the id of any node in
the tree, `insert` with that identifier as target parent returns `false` and
leaves the tree completely unchanged — same shape, same identifiers, same
payloads. -/
theorem claim_C8 {α} (t : Tree α) (pid : Nat) (nn : Tree α)
    (h : pid ∉ treeUuids t) : insert t pid nn = (t, false) :=
  insert_not_found t pid nn h

/-- Witness for C8 at a concrete tree and a concrete absent identifier. -/
theorem claim_C8_witness :
    (99 ∉ treeUuids c8Tree) ∧ insert c8Tree 99 c8New = (c8Tree, false) :=
  ⟨by decide, claim_C8 c8Tree 99 c8New (by decide)⟩

/-- C6 (against the code): the attribute parser accepts the two-character
value `Ta` as `Boolean(true)` and `Fa` as `Boolean(false)` — the code checks
`chars.nth(1) == None` after consuming the first character, accepting any
value of at most two characters that opens with `T`/`F` — while three
characters are rejected and the single letters behave as specified. -/
theorem claim_C6 :
    readAttributes ("x=Ta;".toList) = .ok [.Boolean ['x'] true]
    ∧ readAttributes ("y=Fa;".toList) = .ok [.Boolean ['y'] false]
    ∧ readAttributes ("x=T;".toList) = .ok [.Boolean ['x'] true]
    ∧ readAttributes ("y=F;".toList) = .ok [.Boolean ['y'] false]
    ∧ readAttributes ("z=Tab;".toList) = .error ("bad attribute value".toList) := by
  refine ⟨?_, ?_, ?_, ?_, ?_⟩ <;> rfl

/-- Processing input that contains no newline never extends the accumulated
record list: `read_nodes` emits a record only when it consumes the line's
terminating newline. -/
theorem readNodesLoop_no_newline :
    ∀ (t : Str) (us ps ats cs : Str) (reading : Nat) (nodes : List FlatNode),
      '\n' ∉ t → reading ≤ 3 →
      readNodesLoop t us ps ats cs reading nodes = .ok (sortNodes nodes) := by
  intro t
  induction t with
  | nil => intro us ps ats cs reading nodes _ _; rfl
  | cons c rest ih =>
    intro us ps ats cs reading nodes hnl hr
    have hcn : ¬ c = '\n' := fun he => hnl (he ▸ List.mem_cons_self _ _)
    have hrest : '\n' ∉ rest := fun hm => hnl (List.mem_cons_of_mem _ hm)
    by_cases hsp : c = ' '
    · subst hsp
      by_cases h3 : reading < 3
      · simp only [readNodesLoop, if_pos rfl, if_pos h3]
        exact ih us ps ats cs (reading + 1) nodes hrest (by omega)
      · simp only [readNodesLoop, if_pos rfl, if_neg h3]
        exact ih us ps ats (cs ++ [' ']) reading nodes hrest hr
    · match reading, hr with
      | 0, _ =>
        simp only [readNodesLoop, if_neg hsp, if_neg hcn]
        exact ih (us ++ [c]) ps ats cs 0 nodes hrest (by omega)
      | 1, _ =>
        simp only [readNodesLoop, if_neg hsp, if_neg hcn]
        exact ih us (ps ++ [c]) ats cs 1 nodes hrest (by omega)
      | 2, _ =>
        simp only [readNodesLoop, if_neg hsp, if_neg hcn]
        exact ih us ps (ats ++ [c]) cs 2 nodes hrest (by omega)
      | 3, _ =>
        simp only [readNodesLoop, if_neg hsp, if_neg hcn]
        exact ih us ps ats (cs ++ [c]) 3 nodes hrest (by omega)

/-- Appending newline-free input after any input does not change what the
reader machine returns. -/
theorem readNodesLoop_append :
    ∀ (s t : Str) (us ps ats cs : Str) (reading : Nat) (nodes : List FlatNode),
      '\n' ∉ t → reading ≤ 3 →
      readNodesLoop (s ++ t) us ps ats cs reading nodes
        = readNodesLoop s us ps ats cs reading nodes := by
  intro s t
  induction s with
  | nil =>
    intro us ps ats cs reading nodes hnl hr
    rw [List.nil_append]
    exact readNodesLoop_no_newline t us ps ats cs reading nodes hnl hr
  | cons c rest ih =>
    intro us ps ats cs reading nodes hnl hr
    rw [List.cons_append]
    by_cases hsp : c = ' '
    · subst hsp
      by_cases h3 : reading < 3
      · simp only [readNodesLoop, if_pos rfl, if_pos h3]
        exact ih us ps ats cs (reading + 1) nodes hnl (by omega)
      · simp only [readNodesLoop, if_pos rfl, if_neg h3]
        exact ih us ps ats (cs ++ [' ']) reading nodes hnl hr
    · by_cases hcn : c = '\n'
      · subst hcn
        simp only [readNodesLoop, if_neg hsp, if_pos rfl]
        cases parseUuid us with
        | error e => rfl
        | ok uuid =>
          cases parseUuid ps with
          | error e => rfl
          | ok puuid =>
            cases readAttributes ats with
            | error e => rfl
            | ok attrs => exact ih [] [] [] [] 0 _ hnl (by omega)
      · match reading, hr with
        | 0, _ =>
          simp only [readNodesLoop, if_neg hsp, if_neg hcn]
          exact ih (us ++ [c]) ps ats cs 0 nodes hnl (by omega)
        | 1, _ =>
          simp only [readNodesLoop, if_neg hsp, if_neg hcn]
          exact ih us (ps ++ [c]) ats cs 1 nodes hnl (by omega)
        | 2, _ =>
          simp only [readNodesLoop, if_neg hsp, if_neg hcn]
          exact ih us ps (ats ++ [c]) cs 2 nodes hnl (by omega)
        | 3, _ =>
          simp only [readNodesLoop, if_neg hsp, if_neg hcn]
          exact ih us ps ats (cs ++ [c]) 3 nodes hnl (by omega)

/-- C10: a final line not terminated by a newline is silently discarded by
`read_nodes` — parsing input extended by a newline-free tail yields exactly
the records of the terminated part, with no error for the dropped tail. -/
theorem claim_C10 (s t : Str) (h : '\n' ∉ t) :
    readNodes (s ++ t) = readNodes s :=
  readNodesLoop_append s t [] [] [] [] 0 [] h (by omega)

/-- Witness for C10: one terminated record followed by an unterminated one;
only the terminated record is returned. -/
theorem claim_C10_witness :
    ('\n' ∉ c10Partial)
    ∧ readNodes (c10Full ++ c10Partial) = readNodes c10Full
    ∧ readNodes c10Full = .ok [⟨"a".toList, [], 1, 0⟩] :=
  ⟨by decide, claim_C10 c10Full c10Partial (by decide), by rfl⟩

/-- Unfolding equation for `nodesOf`. -/
theorem nodesOf_mk (v : Node) (u : Nat) (fc ns : Option TreeNode) :
    nodesOf (.mk v u fc ns) =
      v :: ((match fc with | some c => nodesOf c | none => [])
        ++ (match ns with | some s => nodesOf s | none => [])) := by
  cases fc <;> cases ns <;> rfl

/-- C4: `eval` splits the raw text at the first `@`: the part before it is
always a prefix of the result; with no `@` at all the node evaluates to its
raw text unchanged; and under a scripting capability on which the formula of
the `Count:` scenario is a callable rendering `0`, that node evaluates to
`Count: 0`. -/
theorem claim_C4 :
    (∀ (lua : LuaEval) (t : TreeNode),
      ∃ suffix, eval lua t = t.value.raw.takeWhile (fun c => c ≠ '@') ++ suffix)
    ∧ (∀ (lua : LuaEval) (t : TreeNode),
        '@' ∉ t.value.raw → eval lua t = t.value.raw)
    ∧ (∀ lua : LuaEval,
        lua (" function(n) return 0 end".toList) = .Function (fun _ => some ['0']) →
        eval lua c4Count = "Count: 0".toList) := by
  refine ⟨fun lua t => ⟨_, rfl⟩, fun lua t h => ?_, fun lua h => ?_⟩
  · have hall : ∀ c ∈ t.value.raw, (fun c => decide (c ≠ '@')) c = true := by
      intro c hc
      simp only [decide_eq_true_eq]
      exact fun he => h (he ▸ hc)
    have htw : t.value.raw.takeWhile (fun c => c ≠ '@') = t.value.raw :=
      List.takeWhile_eq_self_iff.mpr hall
    have hdw : t.value.raw.dropWhile (fun c => c ≠ '@') = [] :=
      List.dropWhile_eq_nil_iff.mpr hall
    have h1 : eval lua t =
        t.value.raw.takeWhile (fun c => c ≠ '@') ++
          (if !((t.value.raw.dropWhile (fun c => c ≠ '@')).drop 1).isEmpty then
            match lua ((t.value.raw.dropWhile (fun c => c ≠ '@')).drop 1) with
            | .Function f => (f t).getD ("error function".toList)
            | .Value x => x
            | .Err e => e
          else []) := rfl
    rw [h1, htw, hdw]
    simp
  · have h1 : eval lua c4Count =
        ("Count: ".toList) ++
          (match lua (" function(n) return 0 end".toList) with
           | .Function f => (f c4Count).getD ("error function".toList)
           | .Value x => x
           | .Err e => e) := rfl
    rw [h1, h]
    rfl

/-- Witness for C4 at the two scenario nodes, under the stub capability. -/
theorem claim_C4_witness :
    ('@' ∉ c4Plain.value.raw)
    ∧ eval c4Stub c4Plain = "Plain text, no formula".toList
    ∧ eval c4Stub c4Count = "Count: 0".toList :=
  ⟨by decide, claim_C4.2.1 c4Stub c4Plain (by decide), claim_C4.2.2 c4Stub (by rfl)⟩

/-- Every node of an `eval_all` result carries an `evaled` value, and the
pass reaches exactly the nodes of the input tree. -/
theorem evalAll_total : ∀ (lua : LuaEval) (t : TreeNode),
    size (evalAll lua t) = size t
    ∧ (nodesOf (evalAll lua t)).all (fun n => n.evaled.isSome) = true
  | lua, .mk v u fc ns => by
    cases fc with
    | none =>
      cases ns with
      | none => exact And.intro (by rfl) (by rfl)
      | some s =>
        have hs := evalAll_total lua s
        constructor
        · simp [evalAll_mk, size_mk, hs.1]
        · simp only [evalAll_mk, nodesOf_mk, List.nil_append, List.all_cons,
            Option.isSome_some, Bool.true_and]
          exact hs.2
    | some c =>
      have hc := evalAll_total lua c
      cases ns with
      | none =>
        constructor
        · simp [evalAll_mk, size_mk, hc.1]
        · simp only [evalAll_mk, nodesOf_mk, List.append_nil, List.all_cons,
            Option.isSome_some, Bool.true_and]
          exact hc.2
      | some s =>
        have hs := evalAll_total lua s
        constructor
        · simp [evalAll_mk, size_mk, hc.1, hs.1]
        · simp only [evalAll_mk, nodesOf_mk, List.all_cons, List.all_append,
            Option.isSome_some, Bool.true_and, Bool.and_eq_true]
          exact ⟨hc.2, hs.2⟩

/-- C5: for every scripting capability (execution failures included),
`eval_all` reaches every node of the tree and sets its `evaled` field to some
string; and a callable whose call fails never escapes `eval` — the failure is
folded into the node's evaluated text as the `error function` placeholder. -/
theorem claim_C5 :
    (∀ (lua : LuaEval) (t : TreeNode),
      size (evalAll lua t) = size t
      ∧ (nodesOf (evalAll lua t)).all (fun n => n.evaled.isSome) = true)
    ∧ (∀ (lua : LuaEval) (t : TreeNode) (f : TreeNode → Option Str),
        (t.value.raw.dropWhile (fun c => c ≠ '@')).drop 1 ≠ [] →
        lua ((t.value.raw.dropWhile (fun c => c ≠ '@')).drop 1) = .Function f →
        f t = none →
        eval lua t =
          t.value.raw.takeWhile (fun c => c ≠ '@') ++ "error function".toList) := by
  refine ⟨evalAll_total, fun lua t f h1 h2 h3 => ?_⟩
  obtain ⟨a, l, hal⟩ : ∃ a l, (t.value.raw.dropWhile (fun c => c ≠ '@')).drop 1 = a :: l := by
    cases hc : (t.value.raw.dropWhile (fun c => c ≠ '@')).drop 1 with
    | nil => exact absurd hc h1
    | cons a l => exact ⟨a, l, rfl⟩
  rw [hal] at h2
  have h0 : eval lua t = t.value.raw.takeWhile (fun c => c ≠ '@') ++
      (if !((t.value.raw.dropWhile (fun c => c ≠ '@')).drop 1).isEmpty then
        match lua ((t.value.raw.dropWhile (fun c => c ≠ '@')).drop 1) with
        | .Function f => (f t).getD ("error function".toList)
        | .Value x => x
        | .Err e => e
      else []) := rfl
  rw [h0, hal, h2]
  show t.value.raw.takeWhile (fun c => c ≠ '@')
    ++ (f t).getD ("error function".toList) = _
  rw [h3]
  rfl

/-- Witness for C5: a capability on which every call fails still evaluates a
whole concrete tree, marking every node and folding the failure into the
text. -/
theorem claim_C5_witness :
    (size (evalAll c5Stub c5Tree) = size c5Tree
      ∧ (nodesOf (evalAll c5Stub c5Tree)).all (fun n => n.evaled.isSome) = true)
    ∧ eval c5Stub c5Tree =
        (c5Tree.value.raw.takeWhile (fun c => c ≠ '@')) ++ "error function".toList :=
  ⟨claim_C5.1 c5Stub c5Tree,
   claim_C5.2 c5Stub c5Tree (fun _ => none) (by decide) rfl rfl⟩

/-- The traversal of a tree starts with the tree itself at depth 0. -/
theorem self_mem_traverse {α} (t : Tree α) : (0, t) ∈ traverse t := by
  cases t
  rw [traverse_mk]
  exact List.mem_cons_self _ _

/-- Pre-order traversal visits one entry per reachable node. -/
theorem traverse_length {α} : ∀ (t : Tree α), (traverse t).length = size t
  | .mk v u fc ns => by
    cases fc with
    | none =>
      cases ns with
      | none => rfl
      | some s =>
        have hs := traverse_length s
        rw [traverse_mk, size_mk]
        simp only [List.length_cons, List.nil_append, hs]
        omega
    | some c =>
      have hc := traverse_length c
      cases ns with
      | none =>
        rw [traverse_mk, size_mk]
        simp only [List.length_cons, List.append_nil, List.length_map, hc]
        omega
      | some s =>
        have hs := traverse_length s
        rw [traverse_mk, size_mk]
        simp only [List.length_cons, List.length_append, List.length_map, hc, hs]
        omega

/-- Descending to a recorded node's first child adds one to the recorded
depth. -/
theorem traverse_child_step {α} : ∀ (t : Tree α) (d : Nat) (n c : Tree α),
    (d, n) ∈ traverse t → n.first_child = some c → (d + 1, c) ∈ traverse t
  | .mk v u fc ns, d, n, c, hmem, hfc => by
    rw [traverse_mk] at hmem ⊢
    rcases List.mem_cons.mp hmem with heq | hrest
    · injection heq with hd hn
      subst hd
      subst hn
      have hfc' : fc = some c := hfc
      subst hfc'
      refine List.mem_cons_of_mem _ (List.mem_append_left _ ?_)
      exact List.mem_map.mpr ⟨(0, c), self_mem_traverse c, rfl⟩
    · rcases List.mem_append.mp hrest with hch | hsb
      · cases fc with
        | none => simp at hch
        | some c0 =>
          obtain ⟨⟨d0, n0⟩, hin, heq2⟩ := List.mem_map.mp hch
          injection heq2 with h1 h2
          subst h2
          subst h1
          have ihres := traverse_child_step c0 d0 _ c hin hfc
          refine List.mem_cons_of_mem _ (List.mem_append_left _ ?_)
          exact List.mem_map.mpr ⟨(d0 + 1, c), ihres, rfl⟩
      · cases ns with
        | none => simp at hsb
        | some s0 =>
          have ihres := traverse_child_step s0 d n c hsb hfc
          exact List.mem_cons_of_mem _ (List.mem_append_right _ ihres)

/-- Stepping to a recorded node's next sibling keeps the recorded depth. -/
theorem traverse_sib_step {α} : ∀ (t : Tree α) (d : Nat) (n s : Tree α),
    (d, n) ∈ traverse t → n.next_sibling = some s → (d, s) ∈ traverse t
  | .mk v u fc ns, d, n, s, hmem, hns => by
    rw [traverse_mk] at hmem ⊢
    rcases List.mem_cons.mp hmem with heq | hrest
    · injection heq with hd hn
      subst hd
      subst hn
      have hns' : ns = some s := hns
      subst hns'
      exact List.mem_cons_of_mem _ (List.mem_append_right _ (self_mem_traverse s))
    · rcases List.mem_append.mp hrest with hch | hsb
      · cases fc with
        | none => simp at hch
        | some c0 =>
          obtain ⟨⟨d0, n0⟩, hin, heq2⟩ := List.mem_map.mp hch
          injection heq2 with h1 h2
          subst h2
          subst h1
          have ihres := traverse_sib_step c0 d0 _ s hin hns
          refine List.mem_cons_of_mem _ (List.mem_append_left _ ?_)
          exact List.mem_map.mpr ⟨(d0, s), ihres, rfl⟩
      · cases ns with
        | none => simp at hsb
        | some s0 =>
          have ihres := traverse_sib_step s0 d n s hsb hns
          exact List.mem_cons_of_mem _ (List.mem_append_right _ ihres)

/-- C9: `traverse` records the root at depth 0, one entry per node of the
tree; within the recorded sequence every first-child descent raises the
depth by exactly one and every next-sibling step keeps it unchanged. -/
theorem claim_C9 {α} (t : Tree α) :
    (traverse t).head? = some (0, t)
    ∧ (traverse t).length = size t
    ∧ (∀ (d : Nat) (n c : Tree α),
        (d, n) ∈ traverse t → n.first_child = some c → (d + 1, c) ∈ traverse t)
    ∧ (∀ (d : Nat) (n s : Tree α),
        (d, n) ∈ traverse t → n.next_sibling = some s → (d, s) ∈ traverse t) := by
  refine ⟨?_, traverse_length t, fun d n c => traverse_child_step t d n c,
    fun d n s => traverse_sib_step t d n s⟩
  cases t
  rw [traverse_mk]
  rfl

/-- Witness for C9 at a three-node tree: child at depth 1, its sibling also
at depth 1, matching the lengths. -/
theorem claim_C9_witness :
    (traverse c9Tree).head? = some (0, c9Tree)
    ∧ (traverse c9Tree).length = size c9Tree
    ∧ (1, Tree.mk 11 1 none (some (.mk 12 2 none none))) ∈ traverse c9Tree
    ∧ (1, Tree.mk 12 2 none none) ∈ traverse c9Tree := by
  have h1 := (claim_C9 c9Tree).2.2.1 0 c9Tree
    (Tree.mk 11 1 none (some (.mk 12 2 none none))) (self_mem_traverse c9Tree) rfl
  exact ⟨(claim_C9 c9Tree).1, (claim_C9 c9Tree).2.1, h1,
    (claim_C9 c9Tree).2.2.2 1 (Tree.mk 11 1 none (some (.mk 12 2 none none)))
      (Tree.mk 12 2 none none) h1 rfl⟩

/-- Overwriting a position with the value it already holds leaves a list
unchanged. -/
theorem set_self_of_get? {α} : ∀ (l : List α) (i : Nat) (a : α),
    l.get? i = some a → l.set i a = l
  | [], i, a, h => by simp [List.get?] at h
  | x :: t, 0, a, h => by
    simp only [List.get?] at h
    injection h with h
    rw [← h]
    rfl
  | x :: t, i + 1, a, h => by
    simp only [List.get?] at h
    simp [List.set, set_self_of_get? t i a h]

/-- The root identifier survives an insertion. -/
theorem insert_uuid {α} (t : Tree α) (pid : Nat) (nn : Tree α) :
    ((insert t pid nn).1).uuid = t.uuid := by
  obtain ⟨v, u, fc, ns⟩ := t
  cases fc <;> cases ns
  · rw [insert_nn]; split <;> rfl
  · rw [insert_ns]; split <;> rfl
  · rw [insert_sn]; split <;> rfl
  · rw [insert_ss]; split
    · rfl
    · dsimp only
      split <;> rfl

/-- The root of the chain extended by `insert_to_sibling` keeps its
identifier. -/
theorem insertToSibling_uuid {α} (n nn : Tree α) :
    (insertToSibling n nn).uuid = n.uuid := by
  obtain ⟨v, u, fc, ns⟩ := n
  cases ns <;> rfl

/-- Appending to a sibling chain appends the new node's own chain, seen at
the level of identifiers. -/
theorem getSiblings_insertToSibling {α} : ∀ (n nn : Tree α),
    (getSiblings (insertToSibling n nn)).map Tree.uuid
      = (getSiblings n).map Tree.uuid ++ nn.uuid :: (getSiblings nn).map Tree.uuid
  | .mk v u fc ns, nn => by
    cases ns with
    | none =>
      rw [insertToSibling_mk]
      rw [getSiblings_mk, getSiblings_mk]
      rfl
    | some s =>
      have ih := getSiblings_insertToSibling s nn
      rw [insertToSibling_mk]
      rw [getSiblings_mk, getSiblings_mk]
      simp only [List.map_cons, insertToSibling_uuid, ih, List.cons_append]

/-- Inserting under a node's own identifier appends the new node's chain to
its child list, seen at the level of identifiers. -/
theorem insert_self_children {α} (t : Tree α) (nn : Tree α) (h : t.uuid = 0) :
    (getChildren ((insert t 0 nn).1)).map Tree.uuid
      = (getChildren t).map Tree.uuid ++ nn.uuid :: (getSiblings nn).map Tree.uuid := by
  obtain ⟨v, u, fc, ns⟩ := t
  have hu : u = 0 := h
  subst hu
  cases fc with
  | none =>
    cases ns with
    | none =>
      rw [insert_nn, if_pos rfl, getChildren_mk, getChildren_mk]
      rfl
    | some s =>
      rw [insert_ns, if_pos rfl, getChildren_mk, getChildren_mk]
      rfl
  | some n =>
    cases ns with
    | none =>
      rw [insert_sn, if_pos rfl, getChildren_mk, getChildren_mk]
      simp only [List.map_cons, insertToSibling_uuid, getSiblings_insertToSibling,
        List.cons_append]
    | some s =>
      rw [insert_ss, if_pos rfl, getChildren_mk, getChildren_mk]
      simp only [List.map_cons, insertToSibling_uuid, getSiblings_insertToSibling,
        List.cons_append]

/-- Folding the final attachment loop of `nodes_to_tree_node` over a
sentinel-rooted accumulator chains every stored top-level node (and its
siblings) onto the child list. -/
theorem attach_fold {α} : ∀ (tns : List (Tree α)) (acc : Tree α), acc.uuid = 0 →
    (getChildren (tns.foldl (fun a tn => (insert a 0 tn).1) acc)).map Tree.uuid
      = (getChildren acc).map Tree.uuid
        ++ (tns.map (fun tn => tn.uuid :: (getSiblings tn).map Tree.uuid)).flatten := by
  intro tns
  induction tns with
  | nil => intro acc h; simp
  | cons tn rest ih =>
    intro acc h
    rw [List.foldl_cons]
    have h2 : ((insert acc 0 tn).1).uuid = 0 := by rw [insert_uuid]; exact h
    rw [ih _ h2, insert_self_children acc tn h]
    simp [List.append_assoc]

/-- One `buildStep` either keeps the top-level identifier list unchanged or
appends the processed record's identifier. -/
theorem buildStep_map_uuid (nodes : List FlatNode) (tns : List TreeNode) (n : FlatNode) :
    (buildStep nodes tns n).map Tree.uuid = tns.map Tree.uuid
    ∨ (buildStep nodes tns n).map Tree.uuid = tns.map Tree.uuid ++ [n.uuid] := by
  unfold buildStep
  cases hf : List.findIdx? (fun m => m.uuid == n.parent_uuid) nodes with
  | none =>
    right
    dsimp only
    simp [leafOf, Tree.uuid]
  | some idx =>
    dsimp only
    cases hg : tns.get? idx with
    | none => dsimp only; left; rfl
    | some parent =>
      left
      dsimp only
      rw [List.map_set, insert_uuid]
      apply set_self_of_get?
      rw [show (tns.map Tree.uuid).get? idx = (tns.get? idx).map Tree.uuid from by
        simp [List.get?_eq_getElem?, List.getElem?_map], hg]
      rfl

/-- Identifiers present among the top-level nodes survive the rest of the
build loop. -/
theorem buildFold_mono (nodes : List FlatNode) : ∀ (l : List FlatNode)
    (tns : List TreeNode) (u : Nat), u ∈ tns.map Tree.uuid →
    u ∈ (l.foldl (buildStep nodes) tns).map Tree.uuid := by
  intro l
  induction l with
  | nil => intro tns u h; exact h
  | cons n rest ih =>
    intro tns u h
    rw [List.foldl_cons]
    apply ih
    rcases buildStep_map_uuid nodes tns n with he | he
    · rw [he]; exact h
    · rw [he]; exact List.mem_append_left _ h

/-- A record whose declared parent id matches no record's id is pushed by the
build loop, so its identifier ends up among the top-level nodes. -/
theorem buildFold_orphan (nodes : List FlatNode) : ∀ (l : List FlatNode)
    (tns : List TreeNode) (n : FlatNode), n ∈ l →
    (∀ m ∈ nodes, m.uuid ≠ n.parent_uuid) →
    n.uuid ∈ (l.foldl (buildStep nodes) tns).map Tree.uuid := by
  intro l
  induction l with
  | nil => intro tns n h; exact absurd h (List.not_mem_nil n)
  | cons x rest ih =>
    intro tns n hmem horphan
    rw [List.foldl_cons]
    rcases List.mem_cons.mp hmem with heq | htail
    · subst heq
      apply buildFold_mono
      have hidx : List.findIdx? (fun m => m.uuid == n.parent_uuid) nodes = none := by
        rw [List.findIdx?_eq_none_iff]
        intro m hm
        simp only [beq_eq_false_iff_ne, ne_eq]
        exact horphan m hm
      unfold buildStep
      rw [hidx]
      simp [leafOf, Tree.uuid]
    · exact ih (buildStep nodes tns x) n htail horphan

/-- Amended C3: a record whose declared parent id does not occur as the id of
any record is not dropped by `nodes_to_tree_node` — it is attached as a
top-level child of the synthetic sentinel root (and the assembly raises no
error, being a total function). -/
theorem claim_C3 (nodes : List FlatNode) (n : FlatNode) (hmem : n ∈ nodes)
    (horphan : ∀ m ∈ nodes, m.uuid ≠ n.parent_uuid) :
    n.uuid ∈ (getChildren (nodesToTreeNode nodes)).map Tree.uuid := by
  unfold nodesToTreeNode
  rw [attach_fold _ _ (by rfl)]
  have htop := buildFold_orphan nodes nodes [] n hmem horphan
  rw [show (getChildren (Tree.new_tree (Node.new [] []))).map Tree.uuid = [] from rfl,
    List.nil_append]
  obtain ⟨tn, htn, hu⟩ := List.mem_map.mp htop
  apply List.mem_flatten.mpr
  refine ⟨tn.uuid :: (getSiblings tn).map Tree.uuid, ?_, ?_⟩
  · exact List.mem_map.mpr ⟨tn, htn, rfl⟩
  · rw [hu]; exact List.mem_cons_self _ _

/-- Counterexample to C3 as stated: the single record with id 1 and absent
parent id 7 is not silently dropped — the assembled tree contains node 1 (as
a top-level child of the sentinel root). -/
theorem claim_C3_counterexample :
    1 ∈ treeUuids (nodesToTreeNode [c3Orphan])
    ∧ treeUuids (nodesToTreeNode [c3Orphan]) = [0, 1] := by
  constructor <;> decide

/-- Witness for the amended C3 at the concrete orphan record. -/
theorem claim_C3_witness :
    c3Orphan.uuid ∈ (getChildren (nodesToTreeNode [c3Orphan])).map Tree.uuid :=
  claim_C3 [c3Orphan] c3Orphan (by decide) (by decide)

instance : IsTotal FlatNode (fun a b => a.parent_uuid ≤ b.parent_uuid) :=
  ⟨fun a b => Nat.le_total a.parent_uuid b.parent_uuid⟩

instance : IsTrans FlatNode (fun a b => a.parent_uuid ≤ b.parent_uuid) :=
  ⟨fun _ _ _ => Nat.le_trans⟩

/-- The record sort delivers a permutation of its input. -/
theorem sortNodes_perm (l : List FlatNode) : (sortNodes l).Perm l :=
  List.perm_insertionSort _ l

/-- The record sort delivers a list sorted by parent id. -/
theorem sortNodes_sorted (l : List FlatNode) :
    List.Sorted (fun a b : FlatNode => a.parent_uuid ≤ b.parent_uuid) (sortNodes l) :=
  List.sorted_insertionSort _ l

/-- Two lists sorted by a key are equal whenever they are permutations of
each other and the keys are pairwise distinct. -/
theorem sorted_perm_nodup_eq {α} (key : α → Nat) : ∀ (l1 l2 : List α),
    l1.Perm l2 →
    List.Sorted (fun a b => key a ≤ key b) l1 →
    List.Sorted (fun a b => key a ≤ key b) l2 →
    (l1.map key).Nodup →
    l1 = l2 := by
  intro l1
  induction l1 with
  | nil =>
    intro l2 hp _ _ _
    exact (hp.symm.eq_nil).symm
  | cons a t1 ih =>
    intro l2 hp hs1 hs2 hn
    cases l2 with
    | nil => exact absurd hp.eq_nil (by simp)
    | cons b t2 =>
      have hab : a = b := by
        have hbmem : b ∈ a :: t1 := hp.mem_iff.mpr (List.mem_cons_self b t2)
        rcases List.mem_cons.mp hbmem with he | hbt
        · exact he.symm
        · have hamem : a ∈ b :: t2 := hp.mem_iff.mp (List.mem_cons_self a t1)
          rcases List.mem_cons.mp hamem with he2 | hat
          · exact he2
          · exfalso
            have h1 : key a ≤ key b := List.rel_of_sorted_cons hs1 b hbt
            have h2 : key b ≤ key a := List.rel_of_sorted_cons hs2 a hat
            have heq : key a = key b := Nat.le_antisymm h1 h2
            rw [List.map_cons] at hn
            exact (List.nodup_cons.mp hn).1 (List.mem_map.mpr ⟨b, hbt, heq.symm⟩)
      subst hab
      rw [List.map_cons] at hn
      rw [ih t2 hp.cons_inv hs1.of_cons hs2.of_cons (List.nodup_cons.mp hn).2]

/-- Amended C2: the rebuilt tree depends only on the records' order after the
stable sort by parent id; in particular, when no two records declare the same
parent id, rebuilding (`sort_nodes` then `nodes_to_tree_node`) yields an
identical tree for every permutation of the records. -/
theorem claim_C2 (l1 l2 : List FlatNode) (hp : l1.Perm l2)
    (hn : (l1.map (fun n => n.parent_uuid)).Nodup) :
    nodesToTreeNode (sortNodes l1) = nodesToTreeNode (sortNodes l2) := by
  have h12 : sortNodes l1 = sortNodes l2 := by
    apply sorted_perm_nodup_eq (fun n => n.parent_uuid)
    · exact (sortNodes_perm l1).trans (hp.trans (sortNodes_perm l2).symm)
    · exact sortNodes_sorted l1
    · exact sortNodes_sorted l2
    · exact (((sortNodes_perm l1).map _).nodup_iff).mpr hn
  rw [h12]

/-- Counterexample to C2 as stated: the two flat records of `c2Tree` (two
top-level leaves sharing the sentinel parent), rebuilt from its two
permutations, give structurally different trees — the sibling order follows
the input order. -/
theorem claim_C2_counterexample :
    readNodes (exportToSofer c2Tree false) = .ok [c2RecA, c2RecB]
    ∧ List.Perm [c2RecB, c2RecA] [c2RecA, c2RecB]
    ∧ nodesToTreeNode (sortNodes [c2RecA, c2RecB])
        ≠ nodesToTreeNode (sortNodes [c2RecB, c2RecA]) := by
  refine ⟨by rfl, by decide, fun h => ?_⟩
  have h3 : ([1, 2] : List Nat) = [2, 1] := by
    calc ([1, 2] : List Nat)
        = (getChildren (nodesToTreeNode (sortNodes [c2RecA, c2RecB]))).map Tree.uuid := by
          rfl
      _ = (getChildren (nodesToTreeNode (sortNodes [c2RecB, c2RecA]))).map Tree.uuid := by
          rw [h]
      _ = [2, 1] := by rfl
  exact absurd h3 (by decide)

/-- Witness for the amended C2 at a two-record chain with distinct parent
ids, in both orders. -/
theorem claim_C2_witness :
    nodesToTreeNode (sortNodes [c2ChainA, c2ChainB])
      = nodesToTreeNode (sortNodes [c2ChainB, c2ChainA]) :=
  claim_C2 [c2ChainA, c2ChainB] [c2ChainB, c2ChainA] (by decide) (by decide)

instance : IsTotal Rec (fun a b => a.1 ≤ b.1) :=
  ⟨fun a b => Nat.le_total a.1 b.1⟩

instance : IsTrans Rec (fun a b => a.1 ≤ b.1) :=
  ⟨fun _ _ _ => Nat.le_trans⟩

/-- The serialization sort delivers a permutation of the records. -/
theorem sortRecs_perm (l : List Rec) : (sortRecs l).Perm l :=
  List.perm_insertionSort _ l

/-- The serialization sort delivers a list sorted by record id. -/
theorem sortRecs_sorted (l : List Rec) :
    List.Sorted (fun a b : Rec => a.1 ≤ b.1) (sortRecs l) :=
  List.sorted_insertionSort _ l

/-- Unfolding equation for `toVec`. -/
theorem toVec_mk (v : Node) (u : Nat) (fc ns : Option TreeNode) (evaled : Bool) :
    toVec (.mk v u fc ns) evaled =
      (u, 0, exportAttributes (.mk v u fc ns), textOf v evaled)
        :: ((match fc with | some c => toVecChain c u evaled | none => [])
        ++ (match ns with | some s => toVecSibChain s evaled | none => [])) := by
  cases fc <;> cases ns <;> rfl

/-- Left fold that appends a rendering of each element equals the initial
accumulator followed by the concatenated renderings. -/
theorem foldl_append_flatten {α} (f : α → Str) : ∀ (l : List α) (s : Str),
    l.foldl (fun acc x => acc ++ f x) s = s ++ (l.map f).flatten := by
  intro l
  induction l with
  | nil => intro s; simp
  | cons x rest ih =>
    intro s
    rw [List.foldl_cons, ih, List.map_cons, List.flatten_cons, List.append_assoc]

/-- A list sorted by id that is a permutation of a record with id 0 followed
by records with nonzero ids starts with the id-0 record. -/
theorem sorted_head_of_min : ∀ (l : List Rec) (r0 : Rec) (rest0 : List Rec),
    l.Perm (r0 :: rest0) →
    List.Sorted (fun a b : Rec => a.1 ≤ b.1) l →
    r0.1 = 0 → (∀ r ∈ rest0, r.1 ≠ 0) →
    ∃ rest, l = r0 :: rest ∧ rest.Perm rest0 := by
  intro l r0 rest0 hp hs h0 hrest
  cases l with
  | nil => exact absurd hp.symm.eq_nil (by simp)
  | cons x l2 =>
    have hxmem : x ∈ r0 :: rest0 := hp.mem_iff.mp (List.mem_cons_self x l2)
    rcases List.mem_cons.mp hxmem with he | hxr
    · subst he
      exact ⟨l2, rfl, hp.cons_inv⟩
    · exfalso
      have hx0 : x.1 ≠ 0 := hrest x hxr
      have hr0mem : r0 ∈ x :: l2 := hp.mem_iff.mpr (List.mem_cons_self r0 rest0)
      rcases List.mem_cons.mp hr0mem with he2 | hr0l
      · exact hx0 (he2 ▸ h0)
      · have hle : x.1 ≤ r0.1 := List.rel_of_sorted_cons hs r0 hr0l
        rw [h0] at hle
        exact hx0 (Nat.le_zero.mp hle)

/-- C7: on a sentinel-rooted tree whose proper nodes never use the sentinel
as their own id (the data-model invariant), `export_to_sofer` emits one line
per flat record, the emitted records are sorted by id ascending, and the one
record held back is exactly the root's — the record carrying the sentinel as
its own id. -/
theorem claim_C7 (t : TreeNode) (h0 : t.uuid = 0)
    (hrest : ∀ r ∈ (toVec t false).drop 1, r.1 ≠ 0) :
    exportToSofer t false = (((sortRecs (toVec t false)).drop 1).map lineOf).flatten
    ∧ List.Sorted (fun a b : Nat => a ≤ b)
        (((sortRecs (toVec t false)).drop 1).map (fun r => r.1))
    ∧ ∃ rest, sortRecs (toVec t false)
          = ((0 : Nat), (0 : Nat), exportAttributes t, textOf t.value false) :: rest
        ∧ rest.Perm ((toVec t false).drop 1)
        ∧ ∀ r ∈ rest, r.1 ≠ 0 := by
  refine ⟨?_, ?_, ?_⟩
  · unfold exportToSofer
    rw [foldl_append_flatten lineOf _ [], List.nil_append]
  · have hsorted := sortRecs_sorted (toVec t false)
    have hmap : List.Sorted (fun a b : Nat => a ≤ b)
        ((sortRecs (toVec t false)).map (fun r => r.1)) := by
      exact List.Pairwise.map _ (fun a b hab => hab) hsorted
    rw [List.map_drop]
    exact List.Pairwise.sublist (List.drop_sublist 1 _) hmap
  · have hsplit : toVec t false
        = ((0 : Nat), (0 : Nat), exportAttributes t, textOf t.value false)
          :: (toVec t false).tail := by
      obtain ⟨v, u, fc, ns⟩ := t
      have hu : u = 0 := h0
      subst hu
      rw [toVec_mk]
      rfl
    have hrest' : ∀ r ∈ (toVec t false).tail, r.1 ≠ 0 := by
      rw [List.drop_one] at hrest
      exact hrest
    have hp0 : (sortRecs (toVec t false)).Perm
        (((0 : Nat), (0 : Nat), exportAttributes t, textOf t.value false)
          :: (toVec t false).tail) :=
      hsplit ▸ sortRecs_perm (toVec t false)
    obtain ⟨rest, hcons, hperm⟩ :=
      sorted_head_of_min _ _ _ hp0 (sortRecs_sorted _) rfl hrest'
    exact ⟨rest, hcons, by rw [List.drop_one]; exact hperm,
      fun r hr => hrest' r (hperm.mem_iff.mp hr)⟩

/-- Witness for C7 at a sentinel-rooted tree whose children (ids 2 then 1)
are stored in the reverse of their id order. -/
theorem claim_C7_witness :
    exportToSofer c7Tree false
        = (((sortRecs (toVec c7Tree false)).drop 1).map lineOf).flatten
    ∧ List.Sorted (fun a b : Nat => a ≤ b)
        (((sortRecs (toVec c7Tree false)).drop 1).map (fun r => r.1))
    ∧ ∃ rest, sortRecs (toVec c7Tree false)
          = ((0 : Nat), (0 : Nat), exportAttributes c7Tree, textOf c7Tree.value false) :: rest
        ∧ rest.Perm ((toVec c7Tree false).drop 1)
        ∧ ∀ r ∈ rest, r.1 ≠ 0 :=
  claim_C7 c7Tree (by rfl) (by decide)

/-- C1 (against the code): the concrete four-node tree `c1Orig` — all nodes
already carrying identifiers, no attributes, no quote characters — does not
round-trip: `parse(serialize(tree, raw))` yields `c1Rebuilt`, which lost the
record with id 3, so the multisets of `(parent_id, attributes, text)`
associations differ. -/
theorem claim_C1 :
    importFromSofer (exportToSofer c1Orig false) = .ok c1Rebuilt
    ∧ Multiset.ofList (assocList 0 c1Rebuilt) ≠ Multiset.ofList (assocList 0 c1Orig) := by
  constructor
  · rfl
  · intro h
    have h2 := congrArg Multiset.card h
    rw [Multiset.coe_card, Multiset.coe_card] at h2
    rw [show (assocList 0 c1Rebuilt).length = 4 from rfl,
      show (assocList 0 c1Orig).length = 5 from rfl] at h2
    exact absurd h2 (by decide)

end Sofer
